import Mathlib

/-!
Verification of the bibliography/PDF scraper (`scrapper.py`).

Strings are modelled as `List Char`.  The Python regular expressions used by
the scraper are deterministic except for one greedy character class, so each
pattern is embedded as an executable matching function together with the
`re.findall` / `re.search` scanning loops (leftmost scan, non-overlapping
continuation after a match).  The async pipeline is embedded as a pure
function from an environment of oracles (network, HTML link extraction,
filesystem availability) to a trace of effects (directory creations, file
writes, console lines) plus an optional escaped exception.
-/

namespace Scrapper

/-- Left brace character, written via its code point. -/
def braceL : Char := '\x7b'

/-- Right brace character, written via its code point. -/
def braceR : Char := '\x7d'

/-- Whitespace as matched by the regex class backslash-s and stripped by
`str.strip()` (ASCII range, which is all the scraped site produces). -/
def isPySpace (c : Char) : Bool :=
  c == ' ' || c == '\t' || c == '\n' || c == '\r' || c == '\x0b' || c == '\x0c'

/-- Word characters as matched by the regex class backslash-w
(ASCII range). -/
def isWordChar (c : Char) : Bool :=
  c.isAlphanum || c == '_'

/-- The characters replaced by `sanitize_filename`. -/
def isBadFileChar (c : Char) : Bool :=
  c == '\\' || c == '/' || c == ':' || c == '*' || c == '?' || c == '"' ||
  c == '<' || c == '>' || c == '|'

/-- `sanitize_filename`: replace every occurrence of a reserved filename
character by an underscore (Python `re.sub` with a character class). -/
def sanitize_filename (filename : List Char) : List Char :=
  filename.map (fun c => if isBadFileChar c then '_' else c)

/-- Python `str.strip()`: drop whitespace from both ends. -/
def pyStrip (s : List Char) : List Char :=
  ((s.dropWhile isPySpace).reverse.dropWhile isPySpace).reverse

/-- Match a literal sequence of characters at the head of the input,
returning the rest on success. -/
def matchLit : List Char → List Char → Option (List Char)
  | [], s => some s
  | _ :: _, [] => none
  | p :: ps, c :: cs => if p = c then matchLit ps cs else none

/-- Require a single specific character at the head of the input. -/
def expectChar (c : Char) : List Char → Option (List Char)
  | [] => none
  | x :: xs => if x = c then some xs else none

/-- Match the regex fragment between the field name and the value:
optional spaces, an equals sign, optional spaces, an opening brace.
This fragment is deterministic: each starred class is followed by a
character it can never match. -/
def afterEq (s : List Char) : Option (List Char) :=
  match expectChar '=' (s.dropWhile isPySpace) with
  | none => none
  | some s1 => expectChar braceL (s1.dropWhile isPySpace)

/-- Not a brace: the character class of a bibliography field value. -/
def nonBrace (c : Char) : Bool :=
  !(c == braceL || c == braceR)

/-- Match the value part of a field pattern: one or more non-brace
characters followed by a closing brace.  Greedy matching is deterministic
here because giving back characters can never let the closing brace
match. -/
def grabValue (s : List Char) : Option (List Char × List Char) :=
  match s.takeWhile nonBrace with
  | [] => none
  | v0 :: vs =>
    match expectChar braceR (s.dropWhile nonBrace) with
    | none => none
    | some r => some (v0 :: vs, r)

/-- One attempted match of the `extract_bib_field` pattern
(field name, spaces, equals, spaces, brace, value, brace) at the head of
the input.  Returns the captured value and the input after the match. -/
def matchFieldAt (field s : List Char) : Option (List Char × List Char) :=
  match matchLit field s with
  | none => none
  | some s1 =>
    match afterEq s1 with
    | none => none
    | some s2 => grabValue s2

/-- One attempted match of the `extract_all_bib_fields` pattern
(word key, spaces, equals, spaces, brace, value, brace) at the head of the
input.  Backtracking inside the key can never help because a shorter key
leaves a word character where the equals sign is required. -/
def matchKVAt (s : List Char) : Option ((List Char × List Char) × List Char) :=
  match s.takeWhile isWordChar with
  | [] => none
  | k0 :: ks =>
    match afterEq (s.dropWhile isWordChar) with
    | none => none
    | some s2 =>
      match grabValue s2 with
      | none => none
      | some (v, r) => some ((k0 :: ks, v), r)

lemma matchLit_iff {p s r : List Char} : matchLit p s = some r ↔ s = p ++ r := by
  induction p generalizing s with
  | nil => simp [matchLit]
  | cons x xs ih =>
    cases s with
    | nil => simp [matchLit]
    | cons c cs =>
      simp only [matchLit, List.cons_append, List.cons.injEq]
      by_cases h : x = c
      · subst h
        simp [ih]
      · rw [if_neg h]
        simp only [iff_iff_implies_and_implies]
        constructor
        · intro hl; cases hl
        · rintro ⟨hc, -⟩; exact absurd hc.symm h

lemma matchLit_self (p r : List Char) : matchLit p (p ++ r) = some r :=
  matchLit_iff.mpr rfl

lemma expectChar_eq_some {c : Char} {s r : List Char} :
    expectChar c s = some r ↔ s = c :: r := by
  cases s with
  | nil => simp [expectChar]
  | cons x xs =>
    by_cases h : x = c
    · subst h; simp [expectChar]
    · simp [expectChar, h, fun hc : x = c => h hc]

lemma length_dropWhile_le (p : Char → Bool) (s : List Char) :
    (s.dropWhile p).length ≤ s.length := by
  induction s with
  | nil => simp
  | cons c cs ih =>
    by_cases h : p c
    · simp [List.dropWhile_cons, h]; omega
    · simp [List.dropWhile_cons, h]

lemma expectChar_length {c : Char} {s r : List Char} (h : expectChar c s = some r) :
    r.length < s.length := by
  rw [expectChar_eq_some] at h
  subst h; simp

lemma afterEq_length {s r : List Char} (h : afterEq s = some r) :
    r.length < s.length := by
  unfold afterEq at h
  cases h1 : expectChar '=' (s.dropWhile isPySpace) with
  | none => rw [h1] at h; cases h
  | some s1 =>
    rw [h1] at h
    have l1 := expectChar_length h1
    have l2 := expectChar_length h
    have l3 := length_dropWhile_le isPySpace s
    have l4 := length_dropWhile_le isPySpace s1
    omega

lemma grabValue_length {s v r : List Char} (h : grabValue s = some (v, r)) :
    r.length < s.length := by
  unfold grabValue at h
  split at h
  · cases h
  · split at h
    · cases h
    · rename_i r' h2
      have l1 := expectChar_length h2
      have l2 := length_dropWhile_le nonBrace s
      cases h; omega

lemma matchFieldAt_length {f s v r : List Char}
    (h : matchFieldAt f s = some (v, r)) : r.length < s.length := by
  unfold matchFieldAt at h
  split at h
  · cases h
  · rename_i s1 h1
    split at h
    · cases h
    · rename_i s2 h2
      have l1 : s1.length ≤ s.length := by
        rw [matchLit_iff] at h1; subst h1; simp
      have l2 := afterEq_length h2
      have l3 := grabValue_length h
      omega

lemma matchKVAt_length {s k v r : List Char}
    (h : matchKVAt s = some ((k, v), r)) : r.length < s.length := by
  unfold matchKVAt at h
  split at h
  · cases h
  · split at h
    · cases h
    · rename_i s2 h1
      split at h
      · cases h
      · rename_i v' r' h2
        cases h
        have l1 := length_dropWhile_le isWordChar s
        have l2 := afterEq_length h1
        have l3 := grabValue_length h2
        omega

/-- Fuel-indexed version of the `re.findall` scanning loop for the
`extract_bib_field` pattern.  Structural recursion on the fuel keeps the
function kernel-reducible; a fuel of at least the input length is always
enough because every step consumes at least one character. -/
def findAllFieldF (f : List Char) : Nat → List Char → List (List Char)
  | _, [] => []
  | 0, _ :: _ => []
  | n + 1, c :: cs =>
    match matchFieldAt f (c :: cs) with
    | some (v, r) => v :: findAllFieldF f n r
    | none => findAllFieldF f n cs

/-- The scanning loop of `re.findall` for the `extract_bib_field` pattern:
try a match at every position from left to right; after a successful match
continue after its end (non-overlapping matches). -/
def findAllField (f s : List Char) : List (List Char) :=
  findAllFieldF f s.length s

/-- Fuel-indexed version of the scanning loop for the
`extract_all_bib_fields` pattern. -/
def findAllKVF : Nat → List Char → List (List Char × List Char)
  | _, [] => []
  | 0, _ :: _ => []
  | n + 1, c :: cs =>
    match matchKVAt (c :: cs) with
    | some (kv, r) => kv :: findAllKVF n r
    | none => findAllKVF n cs

/-- The scanning loop of `re.findall` for the `extract_all_bib_fields`
pattern. -/
def findAllKV (s : List Char) : List (List Char × List Char) :=
  findAllKVF s.length s

lemma findAllFieldF_fuel {f : List Char} :
    ∀ {n m : Nat} {s : List Char}, s.length ≤ n → s.length ≤ m →
      findAllFieldF f n s = findAllFieldF f m s := by
  intro n
  induction n with
  | zero =>
    intro m s hn _
    have : s = [] := List.length_eq_zero.mp (Nat.le_zero.mp hn)
    subst this
    cases m <;> rfl
  | succ n ih =>
    intro m s hn hm
    cases s with
    | nil => cases m <;> rfl
    | cons c cs =>
      cases m with
      | zero => simp at hm
      | succ m =>
        simp only [findAllFieldF]
        cases h : matchFieldAt f (c :: cs) with
        | some vr =>
          obtain ⟨v, r⟩ := vr
          have hr := matchFieldAt_length h
          simp only [List.length_cons] at hn hm hr
          exact congrArg (v :: ·) (ih (by omega) (by omega))
        | none =>
          simp only [List.length_cons] at hn hm
          exact ih (by omega) (by omega)

lemma findAllKVF_fuel :
    ∀ {n m : Nat} {s : List Char}, s.length ≤ n → s.length ≤ m →
      findAllKVF n s = findAllKVF m s := by
  intro n
  induction n with
  | zero =>
    intro m s hn _
    have : s = [] := List.length_eq_zero.mp (Nat.le_zero.mp hn)
    subst this
    cases m <;> rfl
  | succ n ih =>
    intro m s hn hm
    cases s with
    | nil => cases m <;> rfl
    | cons c cs =>
      cases m with
      | zero => simp at hm
      | succ m =>
        simp only [findAllKVF]
        cases h : matchKVAt (c :: cs) with
        | some kvr =>
          obtain ⟨kv, r⟩ := kvr
          have hr := matchKVAt_length (k := kv.1) (v := kv.2) (by simpa using h)
          simp only [List.length_cons] at hn hm hr
          exact congrArg (kv :: ·) (ih (by omega) (by omega))
        | none =>
          simp only [List.length_cons] at hn hm
          exact ih (by omega) (by omega)

/-- `extract_bib_field`: the last pattern match, stripped, or `none`. -/
def extract_bib_field (bib_text field_name : List Char) : Option (List Char) :=
  (findAllField field_name bib_text).getLast?.map pyStrip

/-- `extract_all_bib_fields`, modelled as the ordered list of key/value
matches with stripped values.  The Python `dict` built from this list is
observed through `bibGet` (last occurrence of a key wins). -/
def extract_all_bib_fields (bib_text : List Char) : List (List Char × List Char) :=
  (findAllKV bib_text).map (fun e => (e.1, pyStrip e.2))

/-- Literal `url` from the PDF-URL pattern. -/
def urlLit : List Char := ['u', 'r', 'l']

/-- Literal `http://`. -/
def httpLit : List Char := ['h', 't', 't', 'p', ':', '/', '/']

/-- Literal `https://`. -/
def httpsLit : List Char := ['h', 't', 't', 'p', 's', ':', '/', '/']

/-- Literal `.pdf`. -/
def pdfExt : List Char := ['.', 'p', 'd', 'f']

/-- Literal `.pdf` followed by a closing brace: what must follow the greedy
part of the PDF-URL pattern. -/
def pdfEndLit : List Char := ['.', 'p', 'd', 'f', braceR]

/-- Whether cutting the greedy non-quote class after `i` characters lets the
rest of the PDF-URL pattern match: the first `i` characters contain no
double quote, at least one character is consumed, and `.pdf` plus a closing
brace follow. -/
def validCut (t : List Char) (i : Nat) : Bool :=
  decide (1 ≤ i) && (t.take i).all (fun c => !(c == '"')) &&
    pdfEndLit.isPrefixOf (t.drop i)

/-- The cut chosen by the greedy (longest-first) character class: the
largest valid cut, if any. -/
def greedyIdx (t : List Char) : Option Nat :=
  ((List.range (t.length + 1)).filter (fun i => validCut t i)).max?

/-- Finish a PDF-URL match after the scheme: pick the greedy cut and build
the captured group (scheme, greedy part, `.pdf`). -/
def pdfTail (sch t : List Char) : Option (List Char) :=
  match greedyIdx t with
  | none => none
  | some i => some (sch ++ t.take i ++ pdfExt)

/-- One attempted match of the `extract_pdf_url` pattern at the head of the
input.  The optional `s` of `https?` is greedy, but only one alternative
can ever proceed past `://`, so trying `https://` then `http://` is
faithful. -/
def matchPdfAt (s : List Char) : Option (List Char) :=
  match matchLit urlLit s with
  | none => none
  | some s1 =>
    match afterEq s1 with
    | none => none
    | some s2 =>
      match matchLit httpsLit s2 with
      | some t => pdfTail httpsLit t
      | none =>
        match matchLit httpLit s2 with
        | some t => pdfTail httpLit t
        | none => none

/-- The scanning loop of `re.search` for `extract_pdf_url`: first position
(left to right) where the pattern matches; the captured group there. -/
def searchPdf : List Char → Option (List Char)
  | [] => none
  | c :: cs =>
    match matchPdfAt (c :: cs) with
    | some v => some v
    | none => searchPdf cs

/-- `extract_pdf_url`. -/
def extract_pdf_url (bib_text : List Char) : Option (List Char) :=
  searchPdf bib_text

/-- Lookup in the Python-dict model: the value of the last pair with the
given key. -/
def bibGet (d : List (List Char × List Char)) (k : List Char) : Option (List Char) :=
  ((d.filter (fun e => e.1 == k)).getLast?).map (fun e => e.2)

/-- Assignment to a key in the Python-dict model (`d[k] = v`): lookup-wise
equivalent to appending the pair. -/
def dictSet (d : List (List Char × List Char)) (k v : List Char) :
    List (List Char × List Char) :=
  d ++ [(k, v)]

lemma findAllField_nil (f : List Char) : findAllField f [] = [] := rfl

lemma findAllField_cons_some {f : List Char} {c : Char} {cs v r : List Char}
    (h : matchFieldAt f (c :: cs) = some (v, r)) :
    findAllField f (c :: cs) = v :: findAllField f r := by
  unfold findAllField
  simp only [List.length_cons, findAllFieldF, h]
  have hr := matchFieldAt_length h
  simp only [List.length_cons] at hr
  exact congrArg (v :: ·) (findAllFieldF_fuel (by omega) le_rfl)

lemma findAllField_cons_none {f : List Char} {c : Char} {cs : List Char}
    (h : matchFieldAt f (c :: cs) = none) :
    findAllField f (c :: cs) = findAllField f cs := by
  unfold findAllField
  simp only [List.length_cons, findAllFieldF, h]

lemma findAllKV_nil : findAllKV [] = [] := rfl

lemma findAllKV_cons_some {c : Char} {cs : List Char}
    {kv : List Char × List Char} {r : List Char}
    (h : matchKVAt (c :: cs) = some (kv, r)) :
    findAllKV (c :: cs) = kv :: findAllKV r := by
  unfold findAllKV
  simp only [List.length_cons, findAllKVF, h]
  have hr := matchKVAt_length (k := kv.1) (v := kv.2) (by simpa using h)
  simp only [List.length_cons] at hr
  exact congrArg (kv :: ·) (findAllKVF_fuel (by omega) le_rfl)

lemma findAllKV_cons_none {c : Char} {cs : List Char}
    (h : matchKVAt (c :: cs) = none) :
    findAllKV (c :: cs) = findAllKV cs := by
  unfold findAllKV
  simp only [List.length_cons, findAllKVF, h]

lemma searchPdf_cons_none {c : Char} {cs : List Char}
    (h : matchPdfAt (c :: cs) = none) :
    searchPdf (c :: cs) = searchPdf cs := by
  simp [searchPdf, h]

lemma searchPdf_cons_some {c : Char} {cs v : List Char}
    (h : matchPdfAt (c :: cs) = some v) :
    searchPdf (c :: cs) = some v := by
  simp [searchPdf, h]

/-! ## Well-formed bibliography texts

A well-formed bibliography text is the rendering of a list of
key/value assignments, one `key = ` + brace + `value` + brace per line. -/

/-- The four characters between a key and its value in a rendered
assignment: space, equals, space, opening brace. -/
def sepLit : List Char := [' ', '=', ' ', braceL]

/-- Render a list of assignments as a bibliography text, one
`key = ` + brace + `value` + brace assignment per line. -/
def render : List (List Char × List Char) → List Char
  | [] => []
  | e :: es => e.1 ++ sepLit ++ e.2 ++ braceR :: '\n' :: render es

/-- A usable field name or key: nonempty and made of word characters. -/
def goodKey (k : List Char) : Prop :=
  k ≠ [] ∧ ∀ c ∈ k, isWordChar c = true

/-- A renderable field value: free of brace characters. -/
def goodVal (v : List Char) : Prop :=
  ∀ c ∈ v, c ≠ braceL ∧ c ≠ braceR

/-- Well-formed assignment lists: word keys and brace-free values
(values may be empty). -/
def WFentries (es : List (List Char × List Char)) : Prop :=
  ∀ e ∈ es, goodKey e.1 ∧ goodVal e.2

instance : DecidablePred goodKey := fun k => by
  unfold goodKey; infer_instance

instance : DecidablePred goodVal := fun v => by
  unfold goodVal; infer_instance

instance : DecidablePred WFentries := fun es => by
  unfold WFentries; infer_instance

/-! ## The pipeline, as a pure function of oracles to effect traces

`aiohttp`, `BeautifulSoup` selectors and the filesystem are external
collaborators; they are modelled as oracles in an environment.  Each
pipeline function produces the list of performed effects plus the
exception (message) escaping its body, if any; the `try`/`except` wrapper
around each body is `catchAll`. -/

/-- An HTTP response: status and body.  `session.get` does not raise on a
non-2xx status (no `raise_for_status`), so the status is carried alongside
the body and never consulted by `fetch`. -/
structure HttpResponse where
  status : Nat
  body : List Char
deriving DecidableEq

/-- Content written to a file: raw PDF bytes, or the JSON serialization of
a field mapping (serialized content identified by its field list). -/
inductive FileData where
  | bytes (b : List Char)
  | json (d : List (List Char × List Char))
deriving DecidableEq

/-- An observable effect of a pipeline invocation. -/
inductive Effect where
  | mkdir (path : List Char)
  | write (path : List Char) (data : FileData)
  | log (msg : List Char)
deriving DecidableEq

/-- The environment of oracles: network (an `Except` error models a raised
`aiohttp` exception — connection error or timeout; a response is returned
whatever its status), the two site-specific soup selectors, and filesystem
failure (a `true` result models a raised `OSError` at that path). -/
structure Env where
  net : List Char → Except (List Char) HttpResponse
  pdfButton : List Char → Option (List Char)
  liLinks : List Char → List (List Char)
  fsFail : List Char → Bool

/-- `BASE_URL`. -/
def BASE_URL : List Char := "https://papers.nips.cc/".data

/-- `os.path.join` with a separator (edge cases of absolute second
arguments do not arise in the pipeline). -/
def pathJoin (a b : List Char) : List Char := a ++ '/' :: b

/-- `fetch`: issue the GET and return the body of whatever response comes
back; a raised network error propagates.  The status is not consulted. -/
def fetchM (net : List Char → Except (List Char) HttpResponse)
    (url : List Char) : Except (List Char) (List Char) :=
  match net url with
  | .error e => .error e
  | .ok r => .ok r.body

/-- The placeholder text of a raised `OSError`. -/
def fsErrMsg : List Char := "OSError".data

/-- The error line printed by `process_bib_and_pdf`'s handler. -/
def errBibMsg (bib_url e : List Char) : List Char :=
  "Error processing bib and PDF: ".data ++ bib_url ++ " | ".data ++ e

/-- The error line printed by `process_abstract`'s handler. -/
def errAbsMsg (url e : List Char) : List Char :=
  "Error processing abstract: ".data ++ url ++ " | ".data ++ e

/-- The error line printed by `process_href`'s handler. -/
def errHrefMsg (url e : List Char) : List Char :=
  "Error processing href: ".data ++ url ++ " | ".data ++ e

/-- The completion line for a PDF download. -/
def dlMsg (path : List Char) : List Char := "Downloaded PDF: ".data ++ path

/-- The completion line for a JSON write. -/
def svMsg (path : List Char) : List Char := "Saved JSON: ".data ++ path

/-- The `try`/`except Exception` wrapper at the top of each pipeline
function: an escaped exception becomes one error line and stops
propagating. -/
def catchAll (mk : List Char → List Char)
    (r : List Effect × Option (List Char)) : List Effect × Option (List Char) :=
  match r.2 with
  | none => r
  | some e => (r.1 ++ [Effect.log (mk e)], none)

/-- Sequential `await`s in a loop: concatenate effects, stopping at the
first escaping exception. -/
def seqAll : List (List Effect × Option (List Char)) →
    List Effect × Option (List Char)
  | [] => ([], none)
  | r :: rest =>
    match r.2 with
    | some e => (r.1, some e)
    | none =>
      match seqAll rest with
      | (effs, exc) => (r.1 ++ effs, exc)

/-- The body of `process_bib_and_pdf` (the code inside the `try`). -/
def bibBody (env : Env) (bib_url folder_path folder_name : List Char) :
    List Effect × Option (List Char) :=
  match fetchM env.net bib_url with
  | .error e => ([], some e)
  | .ok bib_text =>
    match extract_pdf_url bib_text with
    | none => ([], none)
    | some pdf_url =>
      let bib_fields := extract_all_bib_fields bib_text
      let title := (bibGet bib_fields "title".data).getD "Unknown_Title".data
      let booktitle :=
        (bibGet bib_fields "booktitle".data).getD "Unknown_Booktitle".data
      let author :=
        (bibGet bib_fields "author".data).getD "Unknown_Author".data
      let sanitized_title := sanitize_filename title
      let sanitized_booktitle := sanitize_filename booktitle
      let sanitized_author := sanitize_filename author
      let pdf_folder_path := pathJoin folder_path "pdf".data
      let json_folder_path :=
        pathJoin folder_path ("json_".data ++ folder_name)
      if env.fsFail pdf_folder_path then ([], some fsErrMsg)
      else if env.fsFail json_folder_path then
        ([Effect.mkdir pdf_folder_path], some fsErrMsg)
      else
        let e2 := [Effect.mkdir pdf_folder_path, Effect.mkdir json_folder_path]
        let pdf_file_name :=
          sanitized_booktitle ++ '_' :: sanitized_author ++ ".pdf".data
        let pdf_file_path := pathJoin pdf_folder_path pdf_file_name
        match fetchM env.net pdf_url with
        | .error e => (e2, some e)
        | .ok pdf_bytes =>
          if env.fsFail pdf_file_path then (e2, some fsErrMsg)
          else
            let e3 := e2 ++ [Effect.write pdf_file_path (FileData.bytes pdf_bytes),
              Effect.log (dlMsg pdf_file_path)]
            let bib_data := dictSet bib_fields "url".data pdf_url
            let json_file_name := sanitized_title ++ ".json".data
            let json_file_path := pathJoin json_folder_path json_file_name
            if env.fsFail json_file_path then (e3, some fsErrMsg)
            else
              (e3 ++ [Effect.write json_file_path (FileData.json bib_data),
                Effect.log (svMsg json_file_path)], none)

/-- `process_bib_and_pdf`. -/
def process_bib_and_pdf (env : Env) (bib_url folder_path folder_name : List Char) :
    List Effect × Option (List Char) :=
  catchAll (errBibMsg bib_url) (bibBody env bib_url folder_path folder_name)

/-- The body of `process_abstract` (the code inside the `try`). -/
def abstractBody (env : Env) (url folder_path folder_name : List Char) :
    List Effect × Option (List Char) :=
  match fetchM env.net url with
  | .error e => ([], some e)
  | .ok html =>
    match env.pdfButton html with
    | none => ([], none)
    | some href =>
      process_bib_and_pdf env (BASE_URL ++ href) folder_path folder_name

/-- `process_abstract`. -/
def process_abstract (env : Env) (url folder_path folder_name : List Char) :
    List Effect × Option (List Char) :=
  catchAll (errAbsMsg url) (abstractBody env url folder_path folder_name)

/-- The paper-listing path prefix tested by `href.startswith`. -/
def paperPath : List Char := "/paper_files/paper/".data

/-- The body of `process_href` (the code inside the `try`). -/
def hrefBody (env : Env) (url folder_path folder_name : List Char) :
    List Effect × Option (List Char) :=
  match fetchM env.net url with
  | .error e => ([], some e)
  | .ok html =>
    seqAll (((env.liLinks html).filter (fun h => paperPath.isPrefixOf h)).map
      (fun h => process_abstract env (BASE_URL ++ h) folder_path folder_name))

/-- `process_href`. -/
def process_href (env : Env) (url folder_path folder_name : List Char) :
    List Effect × Option (List Char) :=
  catchAll (errHrefMsg url) (hrefBody env url folder_path folder_name)

/-- Paths of the file writes in a trace. -/
def pathsOfWrites (effs : List Effect) : List (List Char) :=
  effs.filterMap (fun e =>
    match e with
    | Effect.write p _ => some p
    | _ => none)

/-- Field mappings of the JSON writes in a trace. -/
def jsonsOfWrites (effs : List Effect) : List (List (List Char × List Char)) :=
  effs.filterMap (fun e =>
    match e with
    | Effect.write _ (FileData.json d) => some d
    | _ => none)

/-- Test for a log effect. -/
def isLogEff (e : Effect) : Bool :=
  match e with
  | Effect.log _ => true
  | _ => false

/-- Test for a write effect. -/
def isWriteEff (e : Effect) : Bool :=
  match e with
  | Effect.write _ _ => true
  | _ => false

/-- Test for a directory-creation effect. -/
def isMkdirEff (e : Effect) : Bool :=
  match e with
  | Effect.mkdir _ => true
  | _ => false

/-! ## Character-class facts -/

lemma word_ne {c : Char} (hc : isWordChar c = true) {d : Char}
    (hd : isWordChar d = false) : c ≠ d := by
  intro h; subst h; rw [hc] at hd; cases hd

lemma word_beq_false {c : Char} (hc : isWordChar c = true) {d : Char}
    (hd : isWordChar d = false) : (c == d) = false :=
  beq_eq_false_iff_ne.mpr (word_ne hc hd)

lemma word_not_space {c : Char} (hc : isWordChar c = true) :
    isPySpace c = false := by
  unfold isPySpace
  rw [word_beq_false hc (d := ' ') (by decide),
    word_beq_false hc (d := '\t') (by decide),
    word_beq_false hc (d := '\n') (by decide),
    word_beq_false hc (d := '\r') (by decide),
    word_beq_false hc (d := '\x0b') (by decide),
    word_beq_false hc (d := '\x0c') (by decide)]
  rfl

lemma word_nonBrace {c : Char} (hc : isWordChar c = true) :
    nonBrace c = true := by
  unfold nonBrace
  rw [word_beq_false hc (d := braceL) (by decide),
    word_beq_false hc (d := braceR) (by decide)]
  rfl

lemma goodVal_nonBrace {v : List Char} (hv : goodVal v) :
    ∀ c ∈ v, nonBrace c = true := by
  intro c hc
  obtain ⟨h1, h2⟩ := hv c hc
  unfold nonBrace
  rw [beq_eq_false_iff_ne.mpr h1, beq_eq_false_iff_ne.mpr h2]
  rfl

/-! ## takeWhile / dropWhile over concatenations -/

lemma takeWhile_append_stop {p : Char → Bool} {a : List Char} {b0 : Char}
    {t : List Char} (ha : ∀ c ∈ a, p c = true) (hb : p b0 = false) :
    ((a ++ b0 :: t).takeWhile p) = a := by
  induction a with
  | nil => simp [List.takeWhile_cons, hb]
  | cons x xs ih =>
    have hx := ha x (by simp)
    simp only [List.cons_append, List.takeWhile_cons, hx, if_true]
    rw [ih (fun c hc => ha c (by simp [hc]))]

lemma dropWhile_append_stop {p : Char → Bool} {a : List Char} {b0 : Char}
    {t : List Char} (ha : ∀ c ∈ a, p c = true) (hb : p b0 = false) :
    ((a ++ b0 :: t).dropWhile p) = b0 :: t := by
  induction a with
  | nil => simp [List.dropWhile_cons, hb]
  | cons x xs ih =>
    have hx := ha x (by simp)
    simp only [List.cons_append, List.dropWhile_cons, hx, if_true]
    exact ih (fun c hc => ha c (by simp [hc]))

lemma dropWhile_append_keep {p : Char → Bool} {a : List Char} {c0 : Char}
    {t : List Char} (hc : p c0 = false) :
    ((a ++ c0 :: t).dropWhile p) = a.dropWhile p ++ c0 :: t := by
  induction a with
  | nil => simp [List.dropWhile_cons, hc]
  | cons x xs ih =>
    by_cases hx : p x
    · simp only [List.cons_append, List.dropWhile_cons, hx, if_true]
      exact ih
    · simp only [List.cons_append, List.dropWhile_cons, hx]
      simp [hx]

lemma mem_of_mem_dropWhile {p : Char → Bool} {l : List Char} {c : Char}
    (h : c ∈ l.dropWhile p) : c ∈ l := by
  induction l with
  | nil => simpa using h
  | cons x xs ih =>
    by_cases hx : p x
    · simp only [List.dropWhile_cons, hx, if_true] at h
      exact List.mem_cons_of_mem x (ih h)
    · simp only [List.dropWhile_cons, hx] at h
      simpa using h

/-! ## Behaviour of the sub-matchers on rendered fragments -/

lemma afterEq_sep (x : List Char) : afterEq (sepLit ++ x) = some x := rfl

lemma afterEq_head_word {x : Char} (hx : isWordChar x = true) (r : List Char) :
    afterEq (x :: r) = none := by
  unfold afterEq
  rw [List.dropWhile_cons, word_not_space hx]
  simp [expectChar, word_ne hx (d := '=') (by decide)]

lemma afterEq_val_blocked {v : List Char} (hv : goodVal v) (t : List Char) :
    afterEq (v ++ braceR :: t) = none := by
  unfold afterEq
  rw [dropWhile_append_keep (by decide)]
  cases hd : v.dropWhile isPySpace with
  | nil =>
    simp only [List.nil_append]
    rw [show expectChar '=' (braceR :: t) = none by
      simp [expectChar]
      decide]
  | cons x d =>
    by_cases hx : x = '='
    · subst hx
      simp only [List.cons_append]
      rw [show expectChar '=' ('=' :: (d ++ braceR :: t)) = some (d ++ braceR :: t) by
        simp [expectChar]]
      show expectChar braceL (List.dropWhile isPySpace (d ++ braceR :: t)) = none
      rw [dropWhile_append_keep (by decide)]
      cases hd2 : d.dropWhile isPySpace with
      | nil =>
        simp only [List.nil_append]
        simp [expectChar]
        decide
      | cons y d2 =>
        have hy : y ∈ v := by
          have : y ∈ d.dropWhile isPySpace := by rw [hd2]; simp
          have hyd : y ∈ d := mem_of_mem_dropWhile this
          have : y ∈ v.dropWhile isPySpace := by rw [hd]; simp [hyd]
          exact mem_of_mem_dropWhile this
        simp only [List.cons_append]
        simp [expectChar, (hv y hy).1]
    · simp only [List.cons_append]
      simp [expectChar, hx]

lemma grabValue_good {v : List Char} (hv : goodVal v) (hne : v ≠ [])
    (t : List Char) : grabValue (v ++ braceR :: t) = some (v, t) := by
  unfold grabValue
  rw [takeWhile_append_stop (goodVal_nonBrace hv) (by decide),
    dropWhile_append_stop (goodVal_nonBrace hv) (by decide)]
  cases v with
  | nil => exact absurd rfl hne
  | cons v0 vs => simp [expectChar]

lemma grabValue_emptyVal (t : List Char) : grabValue (braceR :: t) = none := rfl

/-! ## Splitting a word-character literal across a non-word boundary -/

lemma word_split {f : List Char} (hf : ∀ c ∈ f, isWordChar c = true)
    {c0 : Char} (hc : isWordChar c0 = false) :
    ∀ {a t r : List Char}, a ++ c0 :: t = f ++ r →
      ∃ a2, a = f ++ a2 ∧ r = a2 ++ c0 :: t := by
  induction f with
  | nil => intro a t r h; exact ⟨a, rfl, h.symm⟩
  | cons x xs ih =>
    intro a t r h
    cases a with
    | nil =>
      exfalso
      simp only [List.nil_append, List.cons_append, List.cons.injEq] at h
      exact word_ne (hf x (by simp)) hc h.1.symm
    | cons y ys =>
      simp only [List.cons_append, List.cons.injEq] at h
      obtain ⟨hy, hrest⟩ := h
      obtain ⟨a2, h1, h2⟩ := ih (fun c hc => hf c (by simp [hc])) hrest
      exact ⟨a2, by simp [hy, h1], h2⟩

/-! ## Where the field and key/value patterns can match inside a
well-formed assignment -/

/-- The `extract_bib_field` pattern never matches at a position whose head
is not a word character (the field name is made of word characters). -/
lemma matchFieldAt_head_fail {f : List Char} (hf : goodKey f) {c : Char}
    (hc : isWordChar c = false) (X : List Char) :
    matchFieldAt f (c :: X) = none := by
  obtain ⟨hne, hword⟩ := hf
  cases f with
  | nil => exact absurd rfl hne
  | cons f0 fs =>
    unfold matchFieldAt
    rw [show matchLit (f0 :: fs) (c :: X) = none by
      simp [matchLit, word_ne (hword f0 (by simp)) hc]]

/-- The key/value pattern never matches at a position whose head is not a
word character. -/
lemma matchKVAt_head_fail {c : Char} (hc : isWordChar c = false)
    (X : List Char) : matchKVAt (c :: X) = none := by
  unfold matchKVAt
  rw [show List.takeWhile isWordChar (c :: X) = [] by
    simp [List.takeWhile_cons, hc]]

/-- The `extract_bib_field` pattern never completes a match from a position
inside a brace-free value: the closing brace arrives before any opening
brace can. -/
lemma matchFieldAt_val_fail {f : List Char} (hf : goodKey f)
    {w : List Char} (hw : goodVal w) (t : List Char) :
    matchFieldAt f (w ++ braceR :: t) = none := by
  unfold matchFieldAt
  cases hml : matchLit f (w ++ braceR :: t) with
  | none => rfl
  | some r =>
    obtain ⟨a2, ha2, hr⟩ := word_split hf.2 (by decide) (matchLit_iff.mp hml)
    subst hr
    have ha2sub : goodVal a2 := fun c hc =>
      hw c (by rw [ha2]; exact List.mem_append_right f hc)
    simp only [afterEq_val_blocked ha2sub t]

/-- Exactly when the `extract_bib_field` pattern matches at the start of a
word-prefix followed by a rendered assignment tail: the remaining key must
equal the field name and the value must be nonempty. -/
lemma matchFieldAt_asgn {f a v : List Char} (hf : goodKey f)
    (ha : ∀ c ∈ a, isWordChar c = true) (hv : goodVal v) (t : List Char) :
    matchFieldAt f (a ++ sepLit ++ v ++ braceR :: t) =
      if f = a ∧ v ≠ [] then some (v, t) else none := by
  by_cases hfa : f = a
  · subst hfa
    unfold matchFieldAt
    rw [show f ++ sepLit ++ v ++ braceR :: t = f ++ (sepLit ++ (v ++ braceR :: t)) by
      simp [List.append_assoc]]
    simp only [matchLit_self, afterEq_sep]
    by_cases hvne : v = []
    · subst hvne
      simp [grabValue_emptyVal]
    · rw [grabValue_good hv hvne]
      simp [hvne]
  · rw [if_neg (fun h => hfa h.1)]
    unfold matchFieldAt
    cases hml : matchLit f (a ++ sepLit ++ v ++ braceR :: t) with
    | none => rfl
    | some r =>
      rw [matchLit_iff] at hml
      rw [show a ++ sepLit ++ v ++ braceR :: t =
        a ++ ' ' :: ('=' :: ' ' :: braceL :: (v ++ braceR :: t)) by
          simp [sepLit, List.append_assoc]] at hml
      obtain ⟨a2, ha2, hr⟩ := word_split hf.2 (by decide) hml
      subst hr
      cases a2 with
      | nil => exact absurd (by simp [ha2]) hfa
      | cons x a3 =>
        have hx : isWordChar x = true := ha x (by simp [ha2])
        rw [show (x :: a3) ++ ' ' :: ('=' :: ' ' :: braceL :: (v ++ braceR :: t)) =
          x :: (a3 ++ ' ' :: ('=' :: ' ' :: braceL :: (v ++ braceR :: t))) by simp]
        simp only [afterEq_head_word hx]

/-- Exactly when the key/value pattern matches at the start of a
word-prefix followed by a rendered assignment tail: the remaining key and
the value must both be nonempty. -/
lemma matchKVAt_asgn {a v : List Char} (ha : ∀ c ∈ a, isWordChar c = true)
    (hv : goodVal v) (t : List Char) :
    matchKVAt (a ++ sepLit ++ v ++ braceR :: t) =
      if a ≠ [] ∧ v ≠ [] then some ((a, v), t) else none := by
  unfold matchKVAt
  rw [show a ++ sepLit ++ v ++ braceR :: t =
    a ++ ' ' :: ('=' :: ' ' :: braceL :: (v ++ braceR :: t)) by
      simp [sepLit, List.append_assoc]]
  rw [takeWhile_append_stop ha (by decide), dropWhile_append_stop ha (by decide)]
  cases a with
  | nil => simp
  | cons a0 as =>
    rw [show (' ' :: ('=' :: ' ' :: braceL :: (v ++ braceR :: t))) =
      sepLit ++ (v ++ braceR :: t) by simp [sepLit]]
    simp only [afterEq_sep]
    by_cases hvne : v = []
    · subst hvne
      simp [grabValue_emptyVal]
    · simp only [grabValue_good hv hvne]
      simp [hvne]

/-! ## Scanning across a rendered assignment -/

lemma findAllField_skip_val {f : List Char} (hf : goodKey f) :
    ∀ {v : List Char}, goodVal v → ∀ t,
      findAllField f (v ++ braceR :: t) = findAllField f t := by
  intro v
  induction v with
  | nil =>
    intro _ t
    rw [List.nil_append, findAllField_cons_none (matchFieldAt_val_fail hf (w := []) (by simp [goodVal]) t)]
  | cons c v' ih =>
    intro hv t
    rw [List.cons_append,
      findAllField_cons_none (by
        rw [show c :: (v' ++ braceR :: t) = (c :: v') ++ braceR :: t by simp]
        exact matchFieldAt_val_fail hf hv t)]
    exact ih (fun x hx => hv x (by simp [hx])) t

lemma findAllField_skip_sep {f : List Char} (hf : goodKey f)
    {v : List Char} (hv : goodVal v) (t : List Char) :
    findAllField f (sepLit ++ v ++ braceR :: t) = findAllField f t := by
  rw [show sepLit ++ v ++ braceR :: t =
    ' ' :: '=' :: ' ' :: braceL :: (v ++ braceR :: t) by simp [sepLit]]
  rw [findAllField_cons_none (matchFieldAt_head_fail hf (by decide) _),
    findAllField_cons_none (matchFieldAt_head_fail hf (by decide) _),
    findAllField_cons_none (matchFieldAt_head_fail hf (by decide) _),
    findAllField_cons_none (matchFieldAt_head_fail hf (by decide) _)]
  exact findAllField_skip_val hf hv t

lemma findAllField_skip_asgn {f : List Char} (hf : goodKey f)
    {v : List Char} (hv : goodVal v) :
    ∀ {k : List Char}, (∀ c ∈ k, isWordChar c = true) →
      (∀ s, s <:+ k → ¬(f = s ∧ v ≠ [])) → ∀ t,
      findAllField f (k ++ sepLit ++ v ++ braceR :: t) = findAllField f t := by
  intro k
  induction k with
  | nil =>
    intro _ _ t
    rw [List.nil_append]
    exact findAllField_skip_sep hf hv t
  | cons c k' ih =>
    intro hk hcond t
    have hstep : matchFieldAt f ((c :: k') ++ sepLit ++ v ++ braceR :: t) = none := by
      rw [matchFieldAt_asgn hf hk hv, if_neg (hcond (c :: k') List.suffix_rfl)]
    rw [show (c :: k') ++ sepLit ++ v ++ braceR :: t =
      c :: (k' ++ sepLit ++ v ++ braceR :: t) by simp]
    rw [findAllField_cons_none (by
      rw [show c :: (k' ++ sepLit ++ v ++ braceR :: t) =
        (c :: k') ++ sepLit ++ v ++ braceR :: t by simp]
      exact hstep)]
    exact ih (fun x hx => hk x (by simp [hx]))
      (fun s hs => hcond s (hs.trans (List.suffix_cons c k'))) t

lemma findAllField_skip_pre {f : List Char} (hf : goodKey f)
    {v : List Char} (hv : goodVal v) :
    ∀ {k4 : List Char}, (∀ c ∈ k4, isWordChar c = true) →
      (∀ c ∈ f, isWordChar c = true) → ∀ t,
      findAllField f (k4 ++ f ++ sepLit ++ v ++ braceR :: t) =
        findAllField f (f ++ sepLit ++ v ++ braceR :: t) := by
  intro k4
  induction k4 with
  | nil => intro _ _ t; rw [List.nil_append]
  | cons c k5 ih =>
    intro hk4 hfw t
    have hall : ∀ x ∈ (c :: k5) ++ f, isWordChar x = true := by
      intro x hx
      rcases List.mem_append.mp hx with h | h
      · exact hk4 x h
      · exact hfw x h
    have hstep : matchFieldAt f (((c :: k5) ++ f) ++ sepLit ++ v ++ braceR :: t) = none := by
      rw [matchFieldAt_asgn hf hall hv]
      rw [if_neg]
      rintro ⟨hfeq, -⟩
      have : f.length = ((c :: k5) ++ f).length := congrArg List.length hfeq
      simp at this
      omega
    rw [show (c :: k5) ++ f ++ sepLit ++ v ++ braceR :: t =
      c :: (k5 ++ f ++ sepLit ++ v ++ braceR :: t) by simp]
    rw [findAllField_cons_none (by
      rw [show c :: (k5 ++ f ++ sepLit ++ v ++ braceR :: t) =
        ((c :: k5) ++ f) ++ sepLit ++ v ++ braceR :: t by simp]
      exact hstep)]
    exact ih (fun x hx => hk4 x (by simp [hx])) hfw t

/-- Characterization of `findAllField` on a well-formed rendered text: the
matches are exactly the assignments whose key has the field name as a
suffix and whose value is nonempty, in order.  (A proper-suffix key such as
`booktitle` for the field `title` also matches: the pattern is not
anchored.) -/
lemma findAllField_render {f : List Char} (hf : goodKey f) :
    ∀ es, WFentries es →
      findAllField f (render es) =
        (es.filter (fun e => f.isSuffixOf e.1 && !e.2.isEmpty)).map (fun e => e.2) := by
  intro es
  induction es with
  | nil => intro _; rfl
  | cons e es ih =>
    intro hwf
    obtain ⟨⟨hkne, hkw⟩, hv⟩ := hwf e (by simp)
    have hwf' : WFentries es := fun x hx => hwf x (by simp [hx])
    show findAllField f (e.1 ++ sepLit ++ e.2 ++ braceR :: '\n' :: render es) = _
    by_cases hs : f <:+ e.1 ∧ e.2 ≠ []
    · obtain ⟨⟨k4, hk4eq⟩, hvne⟩ := hs
      have hk4w : ∀ c ∈ k4, isWordChar c = true := fun c hc =>
        hkw c (by rw [← hk4eq]; exact List.mem_append_left f hc)
      have hfw : ∀ c ∈ f, isWordChar c = true := fun c hc =>
        hkw c (by rw [← hk4eq]; exact List.mem_append_right k4 hc)
      rw [show e.1 ++ sepLit ++ e.2 ++ braceR :: '\n' :: render es =
        k4 ++ f ++ sepLit ++ e.2 ++ braceR :: '\n' :: render es by
          rw [← hk4eq]]
      rw [findAllField_skip_pre hf hv hk4w hfw]
      have hmatch : matchFieldAt f (f ++ sepLit ++ e.2 ++ braceR :: '\n' :: render es) =
          some (e.2, '\n' :: render es) := by
        rw [matchFieldAt_asgn hf hfw hv, if_pos ⟨rfl, hvne⟩]
      obtain ⟨f0, fs, hfc⟩ : ∃ f0 fs, f = f0 :: fs := by
        cases f with
        | nil => exact absurd rfl hf.1
        | cons f0 fs => exact ⟨f0, fs, rfl⟩
      rw [show f ++ sepLit ++ e.2 ++ braceR :: '\n' :: render es =
        f0 :: (fs ++ sepLit ++ e.2 ++ braceR :: '\n' :: render es) by simp [hfc]]
      rw [findAllField_cons_some (by
        rw [show f0 :: (fs ++ sepLit ++ e.2 ++ braceR :: '\n' :: render es) =
          f ++ sepLit ++ e.2 ++ braceR :: '\n' :: render es by simp [hfc]]
        exact hmatch)]
      rw [findAllField_cons_none (matchFieldAt_head_fail hf (by decide) _)]
      rw [ih hwf']
      have hcondT : (f.isSuffixOf e.1 && !e.2.isEmpty) = true := by
        rw [List.isSuffixOf_iff_suffix.mpr ⟨k4, hk4eq⟩]
        simp [List.isEmpty_iff, hvne]
      simp [List.filter_cons, hcondT]
    · rw [findAllField_skip_asgn hf hv hkw
        (fun s hsfx => fun hcontra =>
          hs ⟨hcontra.1 ▸ hsfx, hcontra.2⟩) ('\n' :: render es)]
      rw [findAllField_cons_none (matchFieldAt_head_fail hf (by decide) _)]
      rw [ih hwf']
      have hcondF : (f.isSuffixOf e.1 && !e.2.isEmpty) = false := by
        rcases not_and_or.mp hs with h | h
        · have : f.isSuffixOf e.1 = false := by
            cases hb : f.isSuffixOf e.1 with
            | false => rfl
            | true => exact absurd (List.isSuffixOf_iff_suffix.mp hb) h
          simp [this]
        · have : e.2 = [] := not_not.mp h
          simp [this]
      simp [List.filter_cons, hcondF]

/-- Characterization of `findAllKV` on a well-formed rendered text: the
matches are exactly the assignments with nonempty values, in order. -/
lemma findAllKV_render :
    ∀ es, WFentries es →
      findAllKV (render es) = es.filter (fun e => !e.2.isEmpty) := by
  intro es
  induction es with
  | nil => intro _; rfl
  | cons e es ih =>
    intro hwf
    obtain ⟨⟨hkne, hkw⟩, hv⟩ := hwf e (by simp)
    have hwf' : WFentries es := fun x hx => hwf x (by simp [hx])
    show findAllKV (e.1 ++ sepLit ++ e.2 ++ braceR :: '\n' :: render es) = _
    by_cases hvne : e.2 = []
    · -- empty value: the assignment is skipped entirely
      have hskip : ∀ k : List Char, (∀ c ∈ k, isWordChar c = true) → ∀ t,
          findAllKV (k ++ sepLit ++ braceR :: t) = findAllKV t := by
        intro k
        induction k with
        | nil =>
          intro _ t
          rw [List.nil_append]
          rw [show sepLit ++ braceR :: t =
            ' ' :: '=' :: ' ' :: braceL :: braceR :: t by simp [sepLit]]
          rw [findAllKV_cons_none (matchKVAt_head_fail (by decide) _),
            findAllKV_cons_none (matchKVAt_head_fail (by decide) _),
            findAllKV_cons_none (matchKVAt_head_fail (by decide) _),
            findAllKV_cons_none (matchKVAt_head_fail (by decide) _),
            findAllKV_cons_none (matchKVAt_head_fail (by decide) _)]
        | cons c k' ihk =>
          intro hk t
          have hstep : matchKVAt ((c :: k') ++ sepLit ++ ([] : List Char) ++ braceR :: t) = none := by
            rw [matchKVAt_asgn hk (by simp [goodVal])]
            simp
          rw [show (c :: k') ++ sepLit ++ braceR :: t =
            c :: (k' ++ sepLit ++ braceR :: t) by simp]
          rw [findAllKV_cons_none (by
            rw [show c :: (k' ++ sepLit ++ braceR :: t) =
              (c :: k') ++ sepLit ++ ([] : List Char) ++ braceR :: t by simp]
            exact hstep)]
          exact ihk (fun x hx => hk x (by simp [hx])) t
      rw [show e.1 ++ sepLit ++ e.2 ++ braceR :: '\n' :: render es =
        e.1 ++ sepLit ++ braceR :: '\n' :: render es by simp [hvne]]
      rw [hskip e.1 hkw ('\n' :: render es)]
      rw [findAllKV_cons_none (matchKVAt_head_fail (by decide) _)]
      rw [ih hwf']
      simp [List.filter_cons, hvne]
    · -- nonempty value: the assignment matches at its first character
      have hmatch : matchKVAt (e.1 ++ sepLit ++ e.2 ++ braceR :: '\n' :: render es) =
          some ((e.1, e.2), '\n' :: render es) := by
        rw [matchKVAt_asgn hkw hv, if_pos ⟨hkne, hvne⟩]
      obtain ⟨k0, ks, hkc⟩ : ∃ k0 ks, e.1 = k0 :: ks := by
        cases hk : e.1 with
        | nil => exact absurd hk hkne
        | cons k0 ks => exact ⟨k0, ks, rfl⟩
      rw [show e.1 ++ sepLit ++ e.2 ++ braceR :: '\n' :: render es =
        k0 :: (ks ++ sepLit ++ e.2 ++ braceR :: '\n' :: render es) by simp [hkc]]
      rw [findAllKV_cons_some (by
        rw [show k0 :: (ks ++ sepLit ++ e.2 ++ braceR :: '\n' :: render es) =
          e.1 ++ sepLit ++ e.2 ++ braceR :: '\n' :: render es by simp [hkc]]
        exact hmatch)]
      rw [findAllKV_cons_none (matchKVAt_head_fail (by decide) _)]
      rw [ih hwf']
      have : (e.1, e.2) = e := rfl
      simp [List.filter_cons, List.isEmpty_iff, hvne]

/-- `extract_bib_field` on a well-formed rendered text: the stripped value
of the last assignment whose key ends with the field name (and has a
nonempty value), or `none`. -/
lemma extract_bib_field_render {f : List Char} (hf : goodKey f)
    {es : List (List Char × List Char)} (hwf : WFentries es) :
    extract_bib_field (render es) f =
      ((es.filter (fun e => f.isSuffixOf e.1 && !e.2.isEmpty)).getLast?).map
        (fun e => pyStrip e.2) := by
  unfold extract_bib_field
  rw [findAllField_render hf es hwf, List.getLast?_map, Option.map_map]
  rfl

/-- `extract_all_bib_fields` on a well-formed rendered text: the
assignments with nonempty values, values stripped, in order. -/
lemma extract_all_bib_fields_render {es : List (List Char × List Char)}
    (hwf : WFentries es) :
    extract_all_bib_fields (render es) =
      (es.filter (fun e => !e.2.isEmpty)).map (fun e => (e.1, pyStrip e.2)) := by
  unfold extract_all_bib_fields
  rw [findAllKV_render es hwf]

/-! ## The greedy PDF-URL pattern -/

lemma maxSpec {l : List Nat} {a : Nat} (h : a ∈ l) (h2 : ∀ b ∈ l, b ≤ a) :
    l.max? = some a := by
  rw [List.max?_eq_some_iff]
  · exact ⟨h, h2⟩
  · intro x; omega
  · intro x y; omega
  · intro x y z; omega

lemma matchPdfAt_no_url {X : List Char} (h : ¬ urlLit <+: X) :
    matchPdfAt X = none := by
  unfold matchPdfAt
  cases hml : matchLit urlLit X with
  | none => rfl
  | some r => exact absurd ⟨r, (matchLit_iff.mp hml).symm⟩ h

lemma searchPdf_skip {A : List Char} :
    ∀ {t : List Char}, (∀ p, p < A.length → ¬ (urlLit <+: (A ++ t).drop p)) →
      searchPdf (A ++ t) = searchPdf t := by
  induction A with
  | nil => intro t _; rfl
  | cons c A' ih =>
    intro t h
    rw [List.cons_append, searchPdf_cons_none (matchPdfAt_no_url (by
      have h0 := h 0 (by simp)
      simpa using h0))]
    exact ih (fun p hp => by
      have := h (p + 1) (by simp only [List.length_cons]; omega)
      simpa using this)

/-- A list of at most three characters followed by a closing brace can
never line up with the five pattern characters `.pdf` + brace. -/
lemma no_early_end {a B r : List Char} (ha : a.length ≤ 3)
    (h : a ++ braceR :: B = pdfEndLit ++ r) : False := by
  rw [show pdfEndLit ++ r = '.' :: 'p' :: 'd' :: 'f' :: braceR :: r from rfl] at h
  cases a with
  | nil =>
    injection h with h1 _
    exact absurd h1 (by decide)
  | cons x1 a1 =>
    rw [List.cons_append] at h
    injection h with _ h
    cases a1 with
    | nil =>
      injection h with h2 _
      exact absurd h2 (by decide)
    | cons x2 a2 =>
      rw [List.cons_append] at h
      injection h with _ h
      cases a2 with
      | nil =>
        injection h with h3 _
        exact absurd h3 (by decide)
      | cons x3 a3 =>
        rw [List.cons_append] at h
        injection h with _ h
        cases a3 with
        | nil =>
          injection h with h4 _
          exact absurd h4 (by decide)
        | cons x4 a4 => simp at ha

/-- The unique valid greedy cut in `W ++ brace ++ B` when `W` is a
quote-free, brace-free string ending in `.pdf` and `B` contains no
occurrence of `.pdf` followed by a closing brace. -/
lemma greedyIdx_eq {W B : List Char}
    (hW1 : ∀ c ∈ W, c ≠ '"' ∧ c ≠ braceL ∧ c ≠ braceR)
    (hW2 : pdfExt <:+ W) (hW3 : 5 ≤ W.length)
    (hB : ∀ p, p < B.length → ¬ (pdfEndLit <+: B.drop p)) :
    greedyIdx (W ++ braceR :: B) = some (W.length - 4) := by
  obtain ⟨W0, hW0⟩ := hW2
  have hW0len : W0.length = W.length - 4 := by
    have := congrArg List.length hW0
    simp [pdfExt] at this
    omega
  set T := W ++ braceR :: B with hT
  have hTlen : T.length = W.length + 1 + B.length := by simp [hT]; omega
  have hvalid : validCut T W0.length = true := by
    unfold validCut
    have h1 : decide (1 ≤ W0.length) = true := by
      rw [decide_eq_true_iff]; omega
    have h2 : (T.take W0.length).all (fun c => !(c == '"')) = true := by
      rw [show T = W0 ++ (pdfExt ++ braceR :: B) by rw [hT, ← hW0]; simp,
        List.take_left]
      rw [List.all_eq_true]
      intro c hc
      have hcW : c ∈ W := by rw [← hW0]; exact List.mem_append_left pdfExt hc
      simp [(hW1 c hcW).1]
    have h3 : pdfEndLit.isPrefixOf (T.drop W0.length) = true := by
      rw [show T = W0 ++ (pdfExt ++ braceR :: B) by rw [hT, ← hW0]; simp,
        List.drop_left]
      rw [List.isPrefixOf_iff_prefix]
      exact ⟨B, by simp [pdfEndLit, pdfExt]⟩
    rw [h1, h2, h3]
    rfl
  have hub : ∀ j, validCut T j = true → j ≤ W0.length := by
    intro j hj
    by_contra hgt
    push_neg at hgt
    unfold validCut at hj
    simp only [Bool.and_eq_true] at hj
    have hpre : pdfEndLit <+: T.drop j := List.isPrefixOf_iff_prefix.mp hj.2
    obtain ⟨r, hr⟩ := hpre
    have hlenr := congrArg List.length hr
    simp only [List.length_drop, List.length_append,
      show pdfEndLit.length = 5 from rfl] at hlenr
    by_cases hcase : j ≤ W.length
    · -- the closing brace of the url field falls among the five pattern
      -- characters, but never in the right place
      have hdropT : T.drop j = W.drop j ++ braceR :: B := by
        rw [hT, List.drop_append_eq_append_drop,
          Nat.sub_eq_zero_of_le hcase, List.drop]
      have hlen : (W.drop j).length ≤ 3 := by
        rw [List.length_drop]; omega
      exact no_early_end hlen (hdropT ▸ hr).symm
    · -- the supposed match lies inside B
      push_neg at hcase
      have hdropB : T.drop j = B.drop (j - W.length - 1) := by
        obtain ⟨p, hp⟩ : ∃ p, j = W.length + 1 + p := ⟨j - W.length - 1, by omega⟩
        subst hp
        rw [hT, show W.length + 1 + p = W.length + (1 + p) by omega, List.drop_append,
          show W.length + (1 + p) - W.length - 1 = p by omega,
          show (1 + p) = p + 1 by omega, List.drop_succ_cons]
      by_cases hp : j - W.length - 1 < B.length
      · exact hB (j - W.length - 1) hp (hdropB ▸ ⟨r, hr⟩)
      · push_neg at hp
        have hnil : B.drop (j - W.length - 1) = [] := List.drop_eq_nil_of_le hp
        rw [hdropB, hnil] at hr
        have := congrArg List.length hr
        simp [pdfEndLit] at this
  unfold greedyIdx
  rw [hW0len] at hvalid hub
  apply maxSpec
  · rw [List.mem_filter, List.mem_range]
    exact ⟨by omega, hvalid⟩
  · intro b hb
    rw [List.mem_filter] at hb
    exact hub b hb.2

lemma matchLit_https_http (z : List Char) :
    matchLit httpsLit (httpLit ++ z) = none := rfl

/-- The PDF-URL pattern at the start of a well-delimited url field captures
exactly the field's value. -/
lemma matchPdfAt_url {sch W B : List Char}
    (hsch : sch = httpLit ∨ sch = httpsLit)
    (hW1 : ∀ c ∈ W, c ≠ '"' ∧ c ≠ braceL ∧ c ≠ braceR)
    (hW2 : pdfExt <:+ W) (hW3 : 5 ≤ W.length)
    (hB : ∀ p, p < B.length → ¬ (pdfEndLit <+: B.drop p)) :
    matchPdfAt (urlLit ++ sepLit ++ sch ++ W ++ braceR :: B) =
      some (sch ++ W) := by
  obtain ⟨W0, hW0⟩ := hW2
  have hW0len : W0.length = W.length - 4 := by
    have := congrArg List.length hW0
    simp [pdfExt] at this
    omega
  have htake : (W ++ braceR :: B).take (W.length - 4) = W0 := by
    rw [show W ++ braceR :: B = W0 ++ (pdfExt ++ braceR :: B) by
      rw [← hW0]; simp, ← hW0len, List.take_left]
  have htail : ∀ s, pdfTail s (W ++ braceR :: B) = some (s ++ W) := by
    intro s
    unfold pdfTail
    simp only [greedyIdx_eq hW1 ⟨W0, hW0⟩ hW3 hB]
    rw [htake, List.append_assoc, hW0]
  unfold matchPdfAt
  rw [show urlLit ++ sepLit ++ sch ++ W ++ braceR :: B =
    urlLit ++ (sepLit ++ (sch ++ (W ++ braceR :: B))) by simp]
  simp only [matchLit_self, afterEq_sep]
  rcases hsch with h | h
  · subst h
    simp only [matchLit_https_http, matchLit_self]
    exact htail httpLit
  · subst h
    simp only [matchLit_self]
    exact htail httpsLit

lemma catchAll_exc (mk : List Char → List Char)
    (r : List Effect × Option (List Char)) : (catchAll mk r).2 = none := by
  unfold catchAll
  cases hr : r.2 <;> simp [hr]

lemma bibGet_dictSet (d : List (List Char × List Char)) (k v : List Char) :
    bibGet (dictSet d k v) k = some v := by
  unfold bibGet dictSet
  rw [List.filter_append]
  simp [List.getLast?_concat]

/-- The full effect trace of a successful `process_bib_and_pdf` body:
both directories, the PDF write and its log line, the JSON write and its
log line, in order; no exception. -/
lemma bibBody_success_trace (env : Env) (bib_url folder_path folder_name : List Char)
    (resp presp : HttpResponse) (pdf_url : List Char)
    (hf1 : fetchM env.net bib_url = Except.ok resp.body)
    (h2 : extract_pdf_url resp.body = some pdf_url)
    (hf2 : fetchM env.net pdf_url = Except.ok presp.body)
    (h4 : ∀ p, env.fsFail p = false) :
    bibBody env bib_url folder_path folder_name =
      ([Effect.mkdir (pathJoin folder_path "pdf".data),
        Effect.mkdir (pathJoin folder_path ("json_".data ++ folder_name)),
        Effect.write (pathJoin (pathJoin folder_path "pdf".data)
          (sanitize_filename ((bibGet (extract_all_bib_fields resp.body) "booktitle".data).getD
              "Unknown_Booktitle".data) ++
            '_' :: sanitize_filename ((bibGet (extract_all_bib_fields resp.body) "author".data).getD
              "Unknown_Author".data) ++ ".pdf".data))
          (FileData.bytes presp.body),
        Effect.log (dlMsg (pathJoin (pathJoin folder_path "pdf".data)
          (sanitize_filename ((bibGet (extract_all_bib_fields resp.body) "booktitle".data).getD
              "Unknown_Booktitle".data) ++
            '_' :: sanitize_filename ((bibGet (extract_all_bib_fields resp.body) "author".data).getD
              "Unknown_Author".data) ++ ".pdf".data))),
        Effect.write (pathJoin (pathJoin folder_path ("json_".data ++ folder_name))
          (sanitize_filename ((bibGet (extract_all_bib_fields resp.body) "title".data).getD
              "Unknown_Title".data) ++ ".json".data))
          (FileData.json (dictSet (extract_all_bib_fields resp.body) "url".data pdf_url)),
        Effect.log (svMsg (pathJoin (pathJoin folder_path ("json_".data ++ folder_name))
          (sanitize_filename ((bibGet (extract_all_bib_fields resp.body) "title".data).getD
              "Unknown_Title".data) ++ ".json".data)))], none) := by
  unfold bibBody
  simp only [hf1, h2, hf2, h4, Bool.false_eq_true, if_false]
  rfl

/-! ## Concrete environments used as witnesses and counterexamples -/

/-- A body with no PDF URL. -/
def bodyNoPdf : List Char := "title = \x7bT\x7d".data

/-- An environment whose bibliography fetch returns a body with no PDF
URL. -/
def envNoPdf : Env where
  net := fun _ => Except.ok ⟨200, bodyNoPdf⟩
  pdfButton := fun _ => none
  liLinks := fun _ => []
  fsFail := fun _ => false

/-- A complete bibliography body. -/
def bodySix : List Char :=
  "title = \x7bT\x7d\nauthor = \x7bA\x7d\nbooktitle = \x7bB\x7d\nurl = \x7bhttps://x/y.pdf\x7d".data

/-- An environment whose bibliography fetch returns `bodySix` and whose
other fetches return PDF bytes. -/
def envSix : Env where
  net := fun u =>
    if u == "https://papers.nips.cc/bib6".data then Except.ok ⟨200, bodySix⟩
    else Except.ok ⟨200, "PDFBYTES".data⟩
  pdfButton := fun _ => none
  liLinks := fun _ => []
  fsFail := fun _ => false

/-- A body whose last `url` field differs from the first PDF-pattern
match. -/
def bodyNine : List Char :=
  "url = \x7bhttps://a/b.pdf\x7d\nurl = \x7bzzz\x7d".data

/-- An environment whose bibliography fetch returns `bodyNine`. -/
def envNine : Env where
  net := fun u =>
    if u == "https://papers.nips.cc/bib9".data then Except.ok ⟨200, bodyNine⟩
    else Except.ok ⟨200, "PDFBYTES".data⟩
  pdfButton := fun _ => none
  liLinks := fun _ => []
  fsFail := fun _ => false

/-! ## The claims -/

/-- C1 (amended): for every bibliography body in which the PDF-URL lookup
finds no resolvable PDF URL, `process_bib_and_pdf` performs zero file
writes, zero directory creations, and logs nothing at all — the `if
pdf_url:` block is skipped and the function returns silently, without any
error line. -/
theorem C1_thm (env : Env) (bib_url folder_path folder_name : List Char)
    (resp : HttpResponse) (h1 : env.net bib_url = Except.ok resp)
    (h2 : extract_pdf_url resp.body = none) :
    (process_bib_and_pdf env bib_url folder_path folder_name).1.countP isWriteEff = 0 ∧
    (process_bib_and_pdf env bib_url folder_path folder_name).1.countP isMkdirEff = 0 ∧
    (process_bib_and_pdf env bib_url folder_path folder_name).1.countP isLogEff = 0 := by
  have hfetch : fetchM env.net bib_url = Except.ok resp.body := by
    unfold fetchM; rw [h1]
  have hb : bibBody env bib_url folder_path folder_name = ([], none) := by
    unfold bibBody
    simp only [hfetch, h2]
  have hp : process_bib_and_pdf env bib_url folder_path folder_name = ([], none) := by
    unfold process_bib_and_pdf
    rw [hb]
    rfl
  rw [hp]
  exact ⟨rfl, rfl, rfl⟩

/-- C1 (counterexample to the claim as stated): on a fetched body with no
resolvable PDF URL the pipeline logs zero error lines, not exactly one. -/
theorem C1_counterexample :
    process_bib_and_pdf envNoPdf "https://papers.nips.cc/bib".data "root".data "f".data
      = ([], none) ∧
    (process_bib_and_pdf envNoPdf "https://papers.nips.cc/bib".data "root".data "f".data).1.countP isLogEff = 0 ∧
    extract_pdf_url bodyNoPdf = none ∧
    envNoPdf.net "https://papers.nips.cc/bib".data = Except.ok ⟨200, bodyNoPdf⟩ := by
  exact ⟨by decide, by decide, by decide, rfl⟩

/-- C1 (witness). -/
theorem C1_witness :
    (process_bib_and_pdf envNoPdf "https://x".data "r".data "f".data).1.countP isWriteEff = 0 ∧
    (process_bib_and_pdf envNoPdf "https://x".data "r".data "f".data).1.countP isMkdirEff = 0 ∧
    (process_bib_and_pdf envNoPdf "https://x".data "r".data "f".data).1.countP isLogEff = 0 :=
  C1_thm envNoPdf "https://x".data "r".data "f".data ⟨200, bodyNoPdf⟩ rfl (by decide)

/-- C2 (amended): a raised network error or timeout propagates out of the
fetcher unchanged, and every received response — 2xx or not — has its body
returned; the fetcher performs a single request and never raises on a
non-2xx status. -/
theorem C2_thm (net : List Char → Except (List Char) HttpResponse)
    (url : List Char) :
    (∀ e, net url = Except.error e → fetchM net url = Except.error e) ∧
    (∀ r, net url = Except.ok r → fetchM net url = Except.ok r.body) := by
  constructor <;> intro x hx <;> unfold fetchM <;> rw [hx]

/-- C2 (counterexample to the claim as stated): a 404 response — a
non-2xx status — does not surface as a fetch failure; its body is
returned. -/
theorem C2_counterexample :
    fetchM (fun _ => Except.ok ⟨404, "Not Found".data⟩) "https://papers.nips.cc/".data
      = Except.ok "Not Found".data ∧
    ¬ (200 ≤ 404 ∧ 404 < 300) :=
  ⟨rfl, by omega⟩

/-- C2 (witness). -/
theorem C2_witness :
    fetchM (fun _ => Except.ok ⟨404, "nf".data⟩) "https://u".data = Except.ok "nf".data :=
  (C2_thm (fun _ => Except.ok ⟨404, "nf".data⟩) "https://u".data).2
    ⟨404, "nf".data⟩ rfl

/-- C3 (amended): when a well-delimited `url` field holds an HTTP(S) URL
ending in `.pdf`, no occurrence of `url` begins before that field, and the
text after the field's closing brace contains no occurrence of `.pdf`
followed by a closing brace (so the greedy character class cannot extend
the capture past the field), `extract_pdf_url` returns exactly the field's
value, wherever the field sits among the other fields. -/
theorem C3_thm (A W B sch : List Char)
    (hsch : sch = httpLit ∨ sch = httpsLit)
    (hA : ∀ p, p < A.length →
      ¬ (urlLit <+: (A ++ (urlLit ++ sepLit ++ sch ++ W ++ braceR :: B)).drop p))
    (hW1 : ∀ c ∈ W, c ≠ '"' ∧ c ≠ braceL ∧ c ≠ braceR)
    (hW2 : pdfExt <:+ W) (hW3 : 5 ≤ W.length)
    (hB : ∀ p, p < B.length → ¬ (pdfEndLit <+: B.drop p)) :
    extract_pdf_url (A ++ (urlLit ++ sepLit ++ sch ++ W ++ braceR :: B)) =
      some (sch ++ W) := by
  unfold extract_pdf_url
  rw [searchPdf_skip hA]
  have hmain : matchPdfAt (urlLit ++ sepLit ++ sch ++ W ++ braceR :: B) =
      some (sch ++ W) := matchPdfAt_url hsch hW1 hW2 hW3 hB
  have hX : urlLit ++ sepLit ++ sch ++ W ++ braceR :: B =
      'u' :: ('r' :: 'l' :: (sepLit ++ sch ++ W ++ braceR :: B)) := by
    simp [urlLit]
  rw [hX] at hmain
  rw [hX]
  exact searchPdf_cons_some hmain

/-- C3 (counterexample to the claim as stated): with two `url = ` PDF
fields the greedy class extends the capture across both, so the result is
neither the first field's value nor the second's; and a text whose only
`url` field is not a PDF still produces a match when a later field value
ends in `.pdf`, instead of "absent". -/
theorem C3_counterexample :
    extract_pdf_url ("url = \x7bhttp://a.pdf\x7d\nurl = \x7bhttp://b.pdf\x7d".data) =
      some ("http://a.pdf\x7d\nurl = \x7bhttp://b.pdf".data) ∧
    "http://a.pdf\x7d\nurl = \x7bhttp://b.pdf".data ≠ "http://a.pdf".data ∧
    "http://a.pdf\x7d\nurl = \x7bhttp://b.pdf".data ≠ "http://b.pdf".data ∧
    extract_pdf_url ("url = \x7bhttp://a\x7d\nnote = \x7bb.pdf\x7d".data) ≠ none := by
  exact ⟨by decide, by decide, by decide, by decide⟩

/-- C3 (witness). -/
theorem C3_witness :
    extract_pdf_url ("title = \x7bT\x7d\n".data ++
        (urlLit ++ sepLit ++ httpLit ++ "x/y.pdf".data ++
          braceR :: "\nyear = \x7b2020\x7d".data)) =
      some (httpLit ++ "x/y.pdf".data) :=
  C3_thm "title = \x7bT\x7d\n".data "x/y.pdf".data "\nyear = \x7b2020\x7d".data
    httpLit (Or.inl rfl) (by decide) (by decide) (by decide) (by decide) (by decide)

/-- C4: on a well-formed text of `key = ` + brace + `value` + brace
assignments (word keys, brace-free nonempty values, keys possibly
repeated), bulk extraction returns exactly the declared keys, each value
trimmed of surrounding whitespace, and lookup of any key in the resulting
mapping yields the last occurrence's trimmed value. -/
theorem C4_thm (es : List (List Char × List Char)) (hwf : WFentries es)
    (hne : ∀ e ∈ es, e.2 ≠ []) :
    ((extract_all_bib_fields (render es)).map (fun e => e.1) = es.map (fun e => e.1)) ∧
    (∀ k, bibGet (extract_all_bib_fields (render es)) k =
      ((es.filter (fun e => e.1 == k)).getLast?).map (fun e => pyStrip e.2)) := by
  have hall : extract_all_bib_fields (render es) =
      es.map (fun e => (e.1, pyStrip e.2)) := by
    rw [extract_all_bib_fields_render hwf]
    rw [List.filter_eq_self.mpr (fun e he => by
      simp [List.isEmpty_iff, hne e he])]
  constructor
  · rw [hall, List.map_map]
    rfl
  · intro k
    rw [hall]
    unfold bibGet
    rw [List.filter_map, List.getLast?_map, Option.map_map]
    rfl

/-- C4 (witness). -/
theorem C4_witness :
    bibGet (extract_all_bib_fields
        (render [("title".data, "A".data), ("title".data, " B ".data)]))
      "title".data = some ("B".data) := by
  have h := (C4_thm [("title".data, "A".data), ("title".data, " B ".data)]
    (by decide) (by decide)).2 "title".data
  rw [h]
  decide

/-- C5: the sanitized filename contains none of the reserved characters,
sanitization is idempotent, and it preserves length (each reserved
character is replaced by a single underscore). -/
theorem C5_thm (s : List Char) :
    ((sanitize_filename s).all (fun c => !(isBadFileChar c)) = true) ∧
    sanitize_filename (sanitize_filename s) = sanitize_filename s ∧
    (sanitize_filename s).length = s.length := by
  refine ⟨?_, ?_, by simp [sanitize_filename]⟩
  · rw [List.all_eq_true]
    intro c hc
    rw [sanitize_filename, List.mem_map] at hc
    obtain ⟨a, _, ha⟩ := hc
    by_cases hb : isBadFileChar a
    · rw [← ha]
      simp [hb]
      decide
    · rw [← ha]
      simp [hb]
  · unfold sanitize_filename
    rw [List.map_map]
    congr 1
    funext c
    by_cases hb : isBadFileChar c
    · simp [hb]
    · simp [hb]

/-- C5 (witness). -/
theorem C5_witness :
    sanitize_filename (sanitize_filename "a/b:c*?<d>|e".data) =
      sanitize_filename "a/b:c*?<d>|e".data :=
  (C5_thm "a/b:c*?<d>|e".data).2.1

/-- C6: on the success path, the pipeline writes exactly two files: the
PDF at `folder/pdf/` with name `sanitize(booktitle) + underscore +
sanitize(author) + .pdf` and the JSON at `folder/json_<identifier>/` with
name `sanitize(title) + .json`, where each field falls back to
`Unknown_Booktitle` / `Unknown_Author` / `Unknown_Title` when absent from
the extracted mapping. -/
theorem C6_thm (env : Env) (bib_url folder_path folder_name : List Char)
    (resp presp : HttpResponse) (pdf_url : List Char)
    (h1 : env.net bib_url = Except.ok resp)
    (h2 : extract_pdf_url resp.body = some pdf_url)
    (h3 : env.net pdf_url = Except.ok presp)
    (h4 : ∀ p, env.fsFail p = false) :
    pathsOfWrites (process_bib_and_pdf env bib_url folder_path folder_name).1 =
      [pathJoin (pathJoin folder_path "pdf".data)
        (sanitize_filename ((bibGet (extract_all_bib_fields resp.body) "booktitle".data).getD
            "Unknown_Booktitle".data) ++
          '_' :: sanitize_filename ((bibGet (extract_all_bib_fields resp.body) "author".data).getD
            "Unknown_Author".data) ++ ".pdf".data),
       pathJoin (pathJoin folder_path ("json_".data ++ folder_name))
        (sanitize_filename ((bibGet (extract_all_bib_fields resp.body) "title".data).getD
            "Unknown_Title".data) ++ ".json".data)] := by
  have hfetch1 : fetchM env.net bib_url = Except.ok resp.body := by
    unfold fetchM; rw [h1]
  have hfetch2 : fetchM env.net pdf_url = Except.ok presp.body := by
    unfold fetchM; rw [h3]
  have hb := bibBody_success_trace env bib_url folder_path folder_name resp presp
    pdf_url hfetch1 h2 hfetch2 h4
  unfold process_bib_and_pdf
  rw [hb]
  rfl

/-- C6 (witness). -/
theorem C6_witness :
    pathsOfWrites (process_bib_and_pdf envSix
        "https://papers.nips.cc/bib6".data "root".data "f6".data).1 =
      ["root/pdf/B_A.pdf".data, "root/json_f6/T.json".data] := by
  have h := C6_thm envSix "https://papers.nips.cc/bib6".data "root".data
    "f6".data ⟨200, bodySix⟩ ⟨200, "PDFBYTES".data⟩ "https://x/y.pdf".data
    rfl (by decide) rfl (fun _ => rfl)
  rw [h]
  decide

/-- C7: no pipeline-stage function ever lets an exception escape to its
caller: each of `process_href`, `process_abstract` and
`process_bib_and_pdf` wraps its whole body in a catch-all handler, so the
escaped-exception component of every invocation is `none` for every
environment and input. -/
theorem C7_thm (env : Env) (url folder_path folder_name : List Char) :
    (process_href env url folder_path folder_name).2 = none ∧
    (process_abstract env url folder_path folder_name).2 = none ∧
    (process_bib_and_pdf env url folder_path folder_name).2 = none :=
  ⟨catchAll_exc _ _, catchAll_exc _ _, catchAll_exc _ _⟩

/-- C8 (amended): on well-formed texts, `extract_bib_field` returns the
stripped value of the last assignment whose key ends in the field name; in
particular, when the field name is not a proper suffix of any other
declared key, it returns the last occurrence of the field, or absent when
the field is not declared. -/
theorem C8_thm (es : List (List Char × List Char)) (f : List Char)
    (hwf : WFentries es) (hne : ∀ e ∈ es, e.2 ≠ []) (hf : goodKey f)
    (hsuf : ∀ e ∈ es, f <:+ e.1 → f = e.1) :
    extract_bib_field (render es) f =
      ((es.filter (fun e => e.1 == f)).getLast?).map (fun e => pyStrip e.2) := by
  rw [extract_bib_field_render hf hwf]
  have hfe : es.filter (fun e => f.isSuffixOf e.1 && !e.2.isEmpty) =
      es.filter (fun e => e.1 == f) := by
    apply List.filter_congr
    intro e he
    have hv : (!e.2.isEmpty) = true := by
      simp [List.isEmpty_iff, hne e he]
    by_cases heq : e.1 = f
    · rw [hv, List.isSuffixOf_iff_suffix.mpr (heq ▸ List.suffix_rfl)]
      simp [heq]
    · have hsfx : f.isSuffixOf e.1 = false := by
        cases hb : f.isSuffixOf e.1 with
        | false => rfl
        | true =>
          exact absurd (hsuf e he (List.isSuffixOf_iff_suffix.mp hb)).symm heq
      rw [hsfx, beq_eq_false_iff_ne.mpr heq]
      rfl
  rw [hfe]

/-- C8 (counterexample to the claim as stated): the pattern is not
anchored, so looking up `title` in a text declaring only `booktitle`
returns the `booktitle` value instead of absent. -/
theorem C8_counterexample :
    extract_bib_field ("booktitle = \x7bB\x7d".data) "title".data = some ("B".data) ∧
    (extract_all_bib_fields ("booktitle = \x7bB\x7d".data)).all
      (fun e => !(e.1 == "title".data)) = true := by
  exact ⟨by decide, by decide⟩

/-- C8 (witness). -/
theorem C8_witness :
    extract_bib_field (render [("title".data, "T1".data), ("year".data, "2001".data),
      ("title".data, " T2 ".data)]) "title".data = some ("T2".data) := by
  have h := C8_thm [("title".data, "T1".data), ("year".data, "2001".data),
    ("title".data, " T2 ".data)] "title".data (by decide) (by decide) (by decide)
    (by decide)
  rw [h]
  decide

/-- C9: on the success path, exactly one JSON mapping is written, and its
`url` key holds the PDF URL found by `extract_pdf_url`, regardless of what
any `url` field captured by bulk extraction holds. -/
theorem C9_thm (env : Env) (bib_url folder_path folder_name : List Char)
    (resp presp : HttpResponse) (pdf_url : List Char)
    (h1 : env.net bib_url = Except.ok resp)
    (h2 : extract_pdf_url resp.body = some pdf_url)
    (h3 : env.net pdf_url = Except.ok presp)
    (h4 : ∀ p, env.fsFail p = false) :
    ∃ d, jsonsOfWrites (process_bib_and_pdf env bib_url folder_path folder_name).1 = [d] ∧
      bibGet d "url".data = some pdf_url := by
  have hfetch1 : fetchM env.net bib_url = Except.ok resp.body := by
    unfold fetchM; rw [h1]
  have hfetch2 : fetchM env.net pdf_url = Except.ok presp.body := by
    unfold fetchM; rw [h3]
  have hb := bibBody_success_trace env bib_url folder_path folder_name resp presp
    pdf_url hfetch1 h2 hfetch2 h4
  refine ⟨dictSet (extract_all_bib_fields resp.body) "url".data pdf_url, ?_, ?_⟩
  · unfold process_bib_and_pdf
    rw [hb]
    rfl
  · exact bibGet_dictSet _ _ _

/-- C9 (witness): on a body whose last bulk-extracted `url` value (`zzz`)
differs from the PDF-pattern match, the persisted `url` is the PDF URL. -/
theorem C9_witness :
    (∃ d, jsonsOfWrites (process_bib_and_pdf envNine
        "https://papers.nips.cc/bib9".data "r".data "f9".data).1 = [d] ∧
      bibGet d "url".data = some ("https://a/b.pdf".data)) ∧
    bibGet (extract_all_bib_fields bodyNine) "url".data = some ("zzz".data) :=
  ⟨C9_thm envNine "https://papers.nips.cc/bib9".data "r".data "f9".data
      ⟨200, bodyNine⟩ ⟨200, "PDFBYTES".data⟩ "https://a/b.pdf".data
      rfl (by decide) rfl (fun _ => rfl),
    by decide⟩

/-- C10: an assignment with an empty value is invisible to both extraction
operations: extracting from a text with such an assignment gives exactly
the same results as extracting from the text without it — the bulk mapping
omits the key and lookup of that key reports it absent or falls back to its
other occurrences. -/
theorem C10_thm (es1 es2 : List (List Char × List Char)) (k : List Char)
    (h1 : WFentries es1) (h2 : WFentries es2) (hk : goodKey k) :
    extract_all_bib_fields (render (es1 ++ (k, []) :: es2)) =
      extract_all_bib_fields (render (es1 ++ es2)) ∧
    extract_bib_field (render (es1 ++ (k, []) :: es2)) k =
      extract_bib_field (render (es1 ++ es2)) k := by
  have hwfe : WFentries (es1 ++ (k, []) :: es2) := by
    intro e he
    rcases List.mem_append.mp he with h | h
    · exact h1 e h
    · rcases List.mem_cons.mp h with h | h
      · subst h
        exact ⟨hk, by intro c hc; simp at hc⟩
      · exact h2 e h
  have hwf2 : WFentries (es1 ++ es2) := by
    intro e he
    rcases List.mem_append.mp he with h | h
    exacts [h1 e h, h2 e h]
  constructor
  · rw [extract_all_bib_fields_render hwfe, extract_all_bib_fields_render hwf2]
    rw [List.filter_append, List.filter_append, List.filter_cons]
    simp
  · rw [extract_bib_field_render hk hwfe, extract_bib_field_render hk hwf2]
    rw [List.filter_append, List.filter_append, List.filter_cons]
    simp

/-- C10 (witness). -/
theorem C10_witness :
    extract_bib_field (render ([("title".data, "T".data)] ++
      ("author".data, ([] : List Char)) :: [("year".data, "2020".data)]))
      "author".data = none := by
  have h := (C10_thm [("title".data, "T".data)] [("year".data, "2020".data)]
    "author".data (by decide) (by decide) (by decide)).2
  rw [h]
  decide

end Scrapper
